import Mathlib

/-!
Verification of the NEAT genome core (`NEAT/Genome.py`) of the
Flappy-Bird-NeuroEvolution repository.

The embedding models a Python `dict` as an insertion-ordered association
list (`List (Nat × α)`): assignment `d[k] = v` replaces the value in place
when the key is present and appends the pair otherwise, `d.get(k)` is the
first (unique) entry with that key, iteration follows list order, and
`len`/key membership are list length and key-list membership.
-/

set_option maxHeartbeats 1000000

namespace NEAT

/-- First value stored under key `k`, i.e. Python `d.get(k)` / `d[k]`. -/
def dictGet {α : Type} (d : List (Nat × α)) (k : Nat) : Option α :=
  match d with
  | [] => none
  | (k2, v) :: rest => if k = k2 then some v else dictGet rest k

/-- Python `d[k] = v`: replace in place if the key exists, else append. -/
def dictInsert {α : Type} (d : List (Nat × α)) (k : Nat) (v : α) : List (Nat × α) :=
  match d with
  | [] => [(k, v)]
  | (k2, v2) :: rest => if k = k2 then (k2, v) :: rest else (k2, v2) :: dictInsert rest k v

/-- The key list of a dict (Python `d.keys()`). -/
def dictKeys {α : Type} (d : List (Nat × α)) : List Nat :=
  d.map Prod.fst

/-- Python `k in d`. -/
def dictContains {α : Type} (d : List (Nat × α)) (k : Nat) : Bool :=
  (dictGet d k).isSome

/-- Python `{**d1, **d2}`: entries of `d2` written over `d1`. -/
def dictMerge {α : Type} (d1 d2 : List (Nat × α)) : List (Nat × α) :=
  d2.foldl (fun d kv => dictInsert d kv.1 kv.2) d1

@[simp] theorem dictKeys_nil {α : Type} : dictKeys ([] : List (Nat × α)) = [] := rfl

@[simp] theorem dictKeys_cons {α : Type} (kv : Nat × α) (d : List (Nat × α)) :
    dictKeys (kv :: d) = kv.1 :: dictKeys d := rfl

theorem mem_dictKeys_iff {α : Type} {d : List (Nat × α)} {k : Nat} :
    k ∈ dictKeys d ↔ ∃ v, (k, v) ∈ d := by
  constructor
  · intro h
    rcases List.mem_map.mp h with ⟨⟨k1, v1⟩, hm, he⟩
    cases he
    exact ⟨v1, hm⟩
  · rintro ⟨v, h⟩
    exact List.mem_map.mpr ⟨(k, v), h, rfl⟩

theorem fst_mem_dictKeys {α : Type} {d : List (Nat × α)} {kv : Nat × α} (h : kv ∈ d) :
    kv.1 ∈ dictKeys d :=
  List.mem_map.mpr ⟨kv, h, rfl⟩

theorem dictGet_isSome_iff {α : Type} {d : List (Nat × α)} {k : Nat} :
    (dictGet d k).isSome = true ↔ k ∈ dictKeys d := by
  induction d with
  | nil => simp [dictGet]
  | cons hd tl ih =>
    simp only [dictGet, dictKeys_cons, List.mem_cons]
    by_cases h : k = hd.1
    · simp [h]
    · simp [h, ih]

theorem dictContains_iff {α : Type} {d : List (Nat × α)} {k : Nat} :
    dictContains d k = true ↔ k ∈ dictKeys d := by
  simp [dictContains, dictGet_isSome_iff]

theorem dictGet_eq_none_iff {α : Type} {d : List (Nat × α)} {k : Nat} :
    dictGet d k = none ↔ k ∉ dictKeys d := by
  rw [← dictGet_isSome_iff]
  cases dictGet d k <;> simp

theorem dictGet_mem {α : Type} {d : List (Nat × α)} {k : Nat} {v : α}
    (h : dictGet d k = some v) : (k, v) ∈ d := by
  induction d with
  | nil => simp [dictGet] at h
  | cons hd tl ih =>
    simp only [dictGet] at h
    by_cases hk : k = hd.1
    · rw [if_pos hk] at h
      injection h with h2
      exact List.mem_cons.mpr (Or.inl (by rw [hk, ← h2]))
    · rw [if_neg hk] at h
      exact List.mem_cons_of_mem _ (ih h)

theorem mem_dictInsert {α : Type} {d : List (Nat × α)} {k : Nat} {v : α} {kv : Nat × α}
    (h : kv ∈ dictInsert d k v) : kv ∈ d ∨ kv = (k, v) := by
  induction d with
  | nil => simp [dictInsert] at h; simp [h]
  | cons hd tl ih =>
    simp only [dictInsert] at h
    by_cases hk : k = hd.1
    · rw [if_pos hk] at h
      rcases List.mem_cons.mp h with h | h
      · right; rw [h, hk]
      · left; exact List.mem_cons_of_mem _ h
    · rw [if_neg hk] at h
      rcases List.mem_cons.mp h with h | h
      · left; exact List.mem_cons.mpr (Or.inl h)
      · rcases ih h with h | h
        · left; exact List.mem_cons_of_mem _ h
        · right; exact h

theorem mem_dictKeys_dictInsert {α : Type} (d : List (Nat × α)) (k : Nat) (v : α) (k2 : Nat) :
    k2 ∈ dictKeys (dictInsert d k v) ↔ k2 = k ∨ k2 ∈ dictKeys d := by
  induction d with
  | nil => simp [dictInsert]
  | cons hd tl ih =>
    simp only [dictInsert]
    by_cases hk : k = hd.1
    · rw [if_pos hk]
      simp only [dictKeys_cons, List.mem_cons]
      rw [hk]
      tauto
    · rw [if_neg hk]
      simp only [dictKeys_cons, List.mem_cons]
      rw [ih]
      tauto

theorem dictInsert_length_of_mem {α : Type} {d : List (Nat × α)} {k : Nat} (v : α)
    (h : k ∈ dictKeys d) : (dictInsert d k v).length = d.length := by
  induction d with
  | nil => simp at h
  | cons hd tl ih =>
    simp only [dictInsert]
    by_cases hk : k = hd.1
    · simp [if_pos hk]
    · rw [if_neg hk]
      simp only [dictKeys_cons, List.mem_cons] at h
      rcases h with h | h
      · exact absurd h hk
      · simp [ih h]

theorem dictInsert_length_of_not_mem {α : Type} {d : List (Nat × α)} {k : Nat} (v : α)
    (h : k ∉ dictKeys d) : (dictInsert d k v).length = d.length + 1 := by
  induction d with
  | nil => simp [dictInsert]
  | cons hd tl ih =>
    simp only [dictKeys_cons, List.mem_cons] at h
    push_neg at h
    simp only [dictInsert, if_neg h.1]
    simp [ih h.2]

theorem dictGet_dictInsert_self {α : Type} (d : List (Nat × α)) (k : Nat) (v : α) :
    dictGet (dictInsert d k v) k = some v := by
  induction d with
  | nil => simp [dictInsert, dictGet]
  | cons hd tl ih =>
    simp only [dictInsert]
    by_cases hk : k = hd.1
    · simp [if_pos hk, dictGet, hk]
    · simp [if_neg hk, dictGet, hk, ih]

theorem dictGet_dictInsert_ne {α : Type} (d : List (Nat × α)) (k k2 : Nat) (v : α)
    (h : k2 ≠ k) : dictGet (dictInsert d k v) k2 = dictGet d k2 := by
  induction d with
  | nil => simp [dictInsert, dictGet, h]
  | cons hd tl ih =>
    simp only [dictInsert]
    by_cases hk : k = hd.1
    · rw [if_pos hk]
      simp only [dictGet]
      rw [hk] at h
      simp [h]
    · rw [if_neg hk]
      simp only [dictGet]
      by_cases hk2 : k2 = hd.1
      · simp [hk2]
      · simp [hk2, ih]

/-- Key membership for a loop that conditionally inserts, where the loop
condition depends only on the key. -/
theorem foldl_guard_insert_keys {α : Type} (l : List (Nat × α)) (d0 : List (Nat × α))
    (c : Nat → Bool) (f : Nat × α → α) (k : Nat) :
    k ∈ dictKeys (l.foldl (fun d kv => if c kv.1 then dictInsert d kv.1 (f kv) else d) d0) ↔
      k ∈ dictKeys d0 ∨ (k ∈ dictKeys l ∧ c k = true) := by
  induction l generalizing d0 with
  | nil => simp
  | cons hd tl ih =>
    simp only [List.foldl_cons]
    rw [ih]
    simp only [dictKeys_cons, List.mem_cons]
    by_cases hc : c hd.1 = true
    · rw [if_pos hc, mem_dictKeys_dictInsert]
      by_cases hk : k = hd.1
      · rw [hk]; simp [hc]
      · simp only [hk]; tauto
    · rw [if_neg hc]
      by_cases hk : k = hd.1
      · rw [hk]; simp [hc]
      · simp only [hk]; tauto

/-- Key membership for a loop that unconditionally inserts. -/
theorem foldl_insert_keys {α : Type} (l : List (Nat × α)) (d0 : List (Nat × α))
    (f : Nat × α → α) (k : Nat) :
    k ∈ dictKeys (l.foldl (fun d kv => dictInsert d kv.1 (f kv)) d0) ↔
      k ∈ dictKeys d0 ∨ k ∈ dictKeys l := by
  induction l generalizing d0 with
  | nil => simp
  | cons hd tl ih =>
    simp only [List.foldl_cons]
    rw [ih, mem_dictKeys_dictInsert]
    simp only [dictKeys_cons, List.mem_cons]
    tauto

/-- Entry provenance for an unconditionally inserting loop. -/
theorem mem_foldl_insert {α : Type} {l : List (Nat × α)} {d0 : List (Nat × α)}
    {f : Nat × α → α} {kv : Nat × α}
    (h : kv ∈ l.foldl (fun d kv2 => dictInsert d kv2.1 (f kv2)) d0) :
    kv ∈ d0 ∨ ∃ kv2 ∈ l, kv = (kv2.1, f kv2) := by
  induction l generalizing d0 with
  | nil => simp at h; simp [h]
  | cons hd tl ih =>
    simp only [List.foldl_cons] at h
    rcases ih h with h2 | h2
    · rcases mem_dictInsert h2 with h3 | h3
      · exact Or.inl h3
      · exact Or.inr ⟨hd, List.mem_cons_self _ _, h3⟩
    · rcases h2 with ⟨kv2, hm, he⟩
      exact Or.inr ⟨kv2, List.mem_cons_of_mem _ hm, he⟩

theorem mem_dictMerge {α : Type} {d1 d2 : List (Nat × α)} {kv : Nat × α}
    (h : kv ∈ dictMerge d1 d2) : kv ∈ d1 ∨ kv ∈ d2 := by
  rcases mem_foldl_insert (f := Prod.snd) h with h2 | h2
  · exact Or.inl h2
  · rcases h2 with ⟨kv2, hm, he⟩
    right
    rw [he]
    exact hm

theorem mem_dictKeys_dictMerge {α : Type} (d1 d2 : List (Nat × α)) (k : Nat) :
    k ∈ dictKeys (dictMerge d1 d2) ↔ k ∈ dictKeys d1 ∨ k ∈ dictKeys d2 :=
  foldl_insert_keys d2 d1 Prod.snd k

/-! ## Value records and the innovation-number counter

`NodeGene`, `ConnectionGene` and `InnovationNumberGenerator` live in
repository files that only `Genome.py` shows us through their use; the
spec describes them as plain records and a counter. -/

/-- Modelled from the spec: the `Type` enumeration of `NEAT/NodeGene.py`
(not part of the provided sources): a node is `INPUT`, `HIDDEN` or
`OUTPUT`. -/
inductive NodeType : Type
  | INPUT
  | HIDDEN
  | OUTPUT
deriving DecidableEq, Repr

/-- Modelled from the spec: `NEAT/NodeGene.py` (not part of the provided
sources): a node record with an integer id and a type. -/
structure NodeGene : Type where
  id : Nat
  type : NodeType
deriving DecidableEq, Repr

/-- Modelled from the spec: `NEAT/ConnectionGene.py` (not part of the
provided sources): a directed weighted edge record between node ids,
with an enabled flag and an innovation number.  Python float weights are
modelled as rationals; no claim depends on rounding. -/
structure ConnectionGene : Type where
  in_node : Nat
  out_node : Nat
  weight : Rat
  enabled : Bool
  innovation_number : Nat
deriving DecidableEq, Repr

/-- Modelled from the spec: `NEAT/InnovationNumberGenerator.py` (not part
of the provided sources): a counter constructed from the highest
innovation number already used; `next_int` returns the next unused
integer and advances the state by one.  The state is the last number
issued; the result pair is (issued number, new state). -/
def next_int (state : Nat) : Nat × Nat :=
  (state + 1, state + 1)

/-- `sorted(self.connection_genes.keys())[-1]`: the largest key.  Total
variant used where the genome is known non-empty (`0` on the empty map,
where Python raises `IndexError`). -/
def lastInnovD (cg : List (Nat × ConnectionGene)) : Nat :=
  (dictKeys cg).foldl max 0

/-- `sorted(keys)[-1]` with the Python failure on an empty dict made
explicit: `Genome.get_last_innovation_number`. -/
def get_last_innovation_number? (cg : List (Nat × ConnectionGene)) : Option Nat :=
  if cg.isEmpty then none else some (lastInnovD cg)

theorem le_foldl_max (l : List Nat) (a : Nat) : a ≤ l.foldl max a := by
  induction l generalizing a with
  | nil => simp
  | cons hd tl ih => exact le_trans (le_max_left a hd) (ih (max a hd))

theorem le_foldl_max_of_mem {l : List Nat} {x : Nat} (a : Nat) (h : x ∈ l) :
    x ≤ l.foldl max a := by
  induction l generalizing a with
  | nil => simp at h
  | cons hd tl ih =>
    rcases List.mem_cons.mp h with h | h
    · rw [h]
      exact le_trans (le_max_right a hd) (le_foldl_max tl (max a hd))
    · exact ih (max a hd) h

theorem foldl_max_mem (l : List Nat) (a : Nat) : l.foldl max a = a ∨ l.foldl max a ∈ l := by
  induction l generalizing a with
  | nil => simp
  | cons hd tl ih =>
    rcases ih (max a hd) with h | h
    · rcases max_choice a hd with h2 | h2
      · left; rw [List.foldl_cons, h, h2]
      · right; rw [List.foldl_cons, h, h2]; exact List.mem_cons_self _ _
    · right; exact List.mem_cons_of_mem _ h

theorem le_lastInnovD {cg : List (Nat × ConnectionGene)} {k : Nat}
    (h : k ∈ dictKeys cg) : k ≤ lastInnovD cg :=
  le_foldl_max_of_mem 0 h

theorem lastInnovD_mem {cg : List (Nat × ConnectionGene)} (h : cg ≠ []) :
    lastInnovD cg ∈ dictKeys cg := by
  rcases foldl_max_mem (dictKeys cg) 0 with h2 | h2
  · have hlast : lastInnovD cg = 0 := h2
    rcases cg with _ | ⟨hd, tl⟩
    · exact absurd rfl h
    · have hhd : hd.1 ∈ dictKeys (hd :: tl) := by simp
      have hle : hd.1 ≤ lastInnovD (hd :: tl) := le_lastInnovD hhd
      rw [hlast] at hle
      have h0 : hd.1 = 0 := Nat.le_zero.mp hle
      rw [hlast, ← h0]
      exact hhd
  · exact h2

/-! ## The genome -/

/-- `self.input_nodes`: the three fixed input nodes of every genome
(`Genome.__init__`). -/
def input_nodes : List (Nat × NodeGene) :=
  [(1, ⟨1, NodeType.INPUT⟩), (2, ⟨2, NodeType.INPUT⟩), (3, ⟨3, NodeType.INPUT⟩)]

/-- `self.output_nodes`: the single fixed output node (`Genome.__init__`). -/
def output_nodes : List (Nat × NodeGene) :=
  [(4, ⟨4, NodeType.OUTPUT⟩)]

/-- One endpoint step of `Genome.generate_nodes`: when the id is neither
an input nor an output key, add a hidden node for it unless already
present. -/
def addHiddenIfNew (nodes : List (Nat × NodeGene)) (nid : Nat) : List (Nat × NodeGene) :=
  if dictContains input_nodes nid || dictContains output_nodes nid then nodes
  else if dictContains nodes nid then nodes
  else dictInsert nodes nid ⟨nid, NodeType.HIDDEN⟩

/-- `Genome.generate_nodes`: derive the hidden-node dict from the
connection genes, visiting each connection's `in_node` then `out_node`. -/
def generate_nodes (cg : List (Nat × ConnectionGene)) : List (Nat × NodeGene) :=
  cg.foldl (fun nodes kv => addHiddenIfNew (addHiddenIfNew nodes kv.2.in_node) kv.2.out_node) []

/-- The genome aggregate (`Genome.__init__` fields).  The fixed
`input_nodes`/`output_nodes` dicts are the global constants above;
`innovation_number_generator` is the counter state (last issued
number). -/
structure Genome : Type where
  connection_genes : List (Nat × ConnectionGene)
  hidden_nodes : List (Nat × NodeGene)
  nodes : List (Nat × NodeGene)
  innovation_number_generator : Nat
  fitness : Rat
deriving DecidableEq, Repr

/-- The body of `Genome.__init__` on a (non-empty) connection dict:
hidden nodes from `generate_nodes`, node map `{**inputs, **hidden,
**outputs}`, counter seeded from the last innovation number. -/
def genomeOf (cg : List (Nat × ConnectionGene)) (fitness : Rat) : Genome :=
  { connection_genes := cg
    hidden_nodes := generate_nodes cg
    nodes := dictMerge (dictMerge input_nodes (generate_nodes cg)) output_nodes
    innovation_number_generator := lastInnovD cg
    fitness := fitness }

/-- `Genome(connection_genes, fitness)`: construction fails (Python
`IndexError` in `get_last_innovation_number`) on an empty connection
dict. -/
def Genome.make (cg : List (Nat × ConnectionGene)) (fitness : Rat) : Option Genome :=
  match get_last_innovation_number? cg with
  | none => none
  | some _ => some (genomeOf cg fitness)

/-- `Genome.total_nodes`: input count + hidden count + output count.
Reads the `hidden_nodes` field, which mutations never update. -/
def total_nodes (g : Genome) : Nat :=
  input_nodes.length + g.hidden_nodes.length + output_nodes.length

/-! ## Structural mutation -/

/-- The layering rule of `Genome.add_connection_mutation`: the drawn pair
is used reversed when the first node is an output facing a hidden/input
node, or a hidden node facing an input node. -/
def layeringReversed (n1 n2 : NodeGene) : Bool :=
  (n1.type == NodeType.OUTPUT && (n2.type == NodeType.HIDDEN || n2.type == NodeType.INPUT)) ||
  (n1.type == NodeType.HIDDEN && n2.type == NodeType.INPUT)

/-- The duplicate check of `Genome.add_connection_mutation`: some
connection joins ids `a` and `b` in either orientation. -/
def connectionExistsBetween (cg : List (Nat × ConnectionGene)) (a b : Nat) : Bool :=
  cg.any fun kv =>
    (kv.2.in_node == a && kv.2.out_node == b) || (kv.2.in_node == b && kv.2.out_node == a)

/-- `Genome.add_connection_mutation`.  The random draws are passed in:
`k1`, `k2` are the node keys drawn (the source retries until the two
drawn nodes differ) and `w` the uniformly random weight.  When the drawn
pair is already connected in either direction the genome is returned
unchanged. -/
def add_connection_mutation (g : Genome) (k1 k2 : Nat) (w : Rat) : Genome :=
  match dictGet g.nodes k1, dictGet g.nodes k2 with
  | some node_1, some node_2 =>
    if node_1 = node_2 then g
    else if connectionExistsBetween g.connection_genes node_1.id node_2.id then g
    else
      let rev := layeringReversed node_1 node_2
      let r := next_int g.innovation_number_generator
      let new_connection : ConnectionGene :=
        { in_node := if rev then node_2.id else node_1.id
          out_node := if rev then node_1.id else node_2.id
          weight := w
          enabled := true
          innovation_number := r.1 }
      { g with
        connection_genes := dictInsert g.connection_genes r.1 new_connection
        innovation_number_generator := r.2 }
  | _, _ => g

/-- `Genome.add_node_mutation`.  `choice` is the key of the randomly
drawn connection.  The drawn connection is disabled in place, a hidden
node with id `total_nodes() + 1` is written into `nodes` (only), and two
new connections are appended with the next two innovation numbers: the
first with weight `1.0`, the second carrying the old weight. -/
def add_node_mutation (g : Genome) (choice : Nat) : Genome :=
  match dictGet g.connection_genes choice with
  | none => g
  | some old_connection =>
    let new_node : NodeGene := ⟨total_nodes g + 1, NodeType.HIDDEN⟩
    let r1 := next_int g.innovation_number_generator
    let r2 := next_int r1.2
    let new_connection_1 : ConnectionGene :=
      { in_node := old_connection.in_node
        out_node := new_node.id
        weight := 1
        enabled := true
        innovation_number := r1.1 }
    let new_connection_2 : ConnectionGene :=
      { in_node := new_node.id
        out_node := old_connection.out_node
        weight := old_connection.weight
        enabled := true
        innovation_number := r2.1 }
    { g with
      connection_genes :=
        dictInsert
          (dictInsert
            (dictInsert g.connection_genes choice { old_connection with enabled := false })
            r1.1 new_connection_1)
          r2.1 new_connection_2
      nodes := dictInsert g.nodes new_node.id new_node
      innovation_number_generator := r2.2 }

/-! ## Crossover -/

/-- The fitness reordering at the top of `Genome.get_child_connections`
(the two tuple assignments that swap, and the identity one). -/
def fitCanon (p1 p2 : Genome) : Genome × Genome :=
  if p1.fitness > p2.fitness then (p1, p2)
  else if p1.fitness < p2.fitness then (p2, p1)
  else (p1, p2)

/-- The per-gene inheritance of `get_child_connections`: a gene of the
first dict is taken as-is when the second dict lacks the key, otherwise
one of the two copies is drawn by the coin for that key. -/
def childPick (cg2 : List (Nat × ConnectionGene)) (coin : Nat → Bool)
    (kv : Nat × ConnectionGene) : ConnectionGene :=
  match dictGet cg2 kv.1 with
  | some v2 => if coin kv.1 then kv.2 else v2
  | none => kv.2

/-- The unequal-fitness loop of `get_child_connections`: every key of the
fitter parent's dict is inserted. -/
def childUnequal (cg1 cg2 : List (Nat × ConnectionGene)) (coin : Nat → Bool) :
    List (Nat × ConnectionGene) :=
  cg1.foldl (fun d kv => dictInsert d kv.1 (childPick cg2 coin kv)) []

/-- The equal-fitness loops of `get_child_connections`: keys unique to
either parent, then the matching keys with a coin draw each. -/
def childEqual (cg1 cg2 : List (Nat × ConnectionGene)) (coin : Nat → Bool) :
    List (Nat × ConnectionGene) :=
  let a := cg1.foldl
    (fun d kv => if !dictContains cg2 kv.1 then dictInsert d kv.1 kv.2 else d) []
  let b := cg2.foldl
    (fun d kv => if !dictContains cg1 kv.1 then dictInsert d kv.1 kv.2 else d) a
  cg1.foldl
    (fun d kv => if dictContains cg1 kv.1 && dictContains cg2 kv.1 then
        dictInsert d kv.1 (childPick cg2 coin kv) else d) b

/-- `Genome.get_child_connections`: canonicalize by fitness, then branch
on whether the fitness values differ.  `coin` supplies the per-key 50%
draws. -/
def get_child_connections (p1 p2 : Genome) (coin : Nat → Bool) :
    List (Nat × ConnectionGene) :=
  let q := fitCanon p1 p2
  if q.1.fitness ≠ q.2.fitness then childUnequal q.1.connection_genes q.2.connection_genes coin
  else childEqual q.1.connection_genes q.2.connection_genes coin

/-- The random draws consumed by one `Genome.crossover` call: the
per-gene coins, the two 50% mutation decisions, and the draws the two
mutation operators would consume. -/
structure CrossRand : Type where
  geneCoin : Nat → Bool
  doNodeMut : Bool
  nodeChoice : Nat
  doConnMut : Bool
  connChoice1 : Nat
  connChoice2 : Nat
  connWeight : Rat

/-- `Genome.crossover`: build the child connections, construct the child
genome (default fitness), then apply each mutation with its 50% draw.
`none` models the construction failure on an empty child dict. -/
def crossover (p1 p2 : Genome) (r : CrossRand) : Option Genome :=
  match Genome.make (get_child_connections p1 p2 r.geneCoin) 0 with
  | none => none
  | some child =>
    let c1 := if r.doNodeMut then add_node_mutation child r.nodeChoice else child
    let c2 := if r.doConnMut then
        add_connection_mutation c1 r.connChoice1 r.connChoice2 r.connWeight
      else c1
    some c2

/-! ## Gene alignment -/

/-- `Genome.get_matching_connections`: keys present in both dicts, with
the stored gene drawn by the coin. -/
def get_matching_connections (p1 p2 : Genome) (coin : Nat → Bool) :
    List (Nat × ConnectionGene) :=
  p1.connection_genes.foldl
    (fun m kv => if dictContains p2.connection_genes kv.1 then
        dictInsert m kv.1 (childPick p2.connection_genes coin kv) else m) []

/-- The size reordering of `Genome.get_disjoint_connections`: the first
component is the genome with strictly more connection genes, otherwise
the second argument. -/
def sizeCanon (p1 p2 : Genome) : Genome × Genome :=
  if p1.connection_genes.length > p2.connection_genes.length then (p1, p2) else (p2, p1)

/-- The loops of `get_disjoint_connections` on the reordered pair: keys
of the longer dict missing from the shorter and below its last
innovation number, then all keys of the shorter missing from the
longer. -/
def disjointFrom (cgP cgQ : List (Nat × ConnectionGene)) : List (Nat × ConnectionGene) :=
  let d1 := cgP.foldl
    (fun d kv => if !dictContains cgQ kv.1 && decide (kv.1 < lastInnovD cgQ) then
        dictInsert d kv.1 kv.2 else d) []
  cgQ.foldl
    (fun d kv => if !dictContains cgP kv.1 then dictInsert d kv.1 kv.2 else d) d1

/-- `Genome.get_disjoint_connections`. -/
def get_disjoint_connections (p1 p2 : Genome) : List (Nat × ConnectionGene) :=
  let q := sizeCanon p1 p2
  disjointFrom q.1.connection_genes q.2.connection_genes

/-- The last-innovation reordering of `Genome.get_excess_connections`:
the first component is the genome with the strictly larger last
innovation number, otherwise the second argument. -/
def maxCanon (p1 p2 : Genome) : Genome × Genome :=
  if lastInnovD p1.connection_genes > lastInnovD p2.connection_genes then (p1, p2) else (p2, p1)

/-- The loop of `get_excess_connections` on the reordered pair: keys of
the first dict beyond the second genome's last innovation number. -/
def excessFrom (cgP cgQ : List (Nat × ConnectionGene)) : List (Nat × ConnectionGene) :=
  cgP.foldl
    (fun d kv => if decide (kv.1 > lastInnovD cgQ) then dictInsert d kv.1 kv.2 else d) []

/-- `Genome.get_excess_connections`. -/
def get_excess_connections (p1 p2 : Genome) : List (Nat × ConnectionGene) :=
  let q := maxCanon p1 p2
  excessFrom q.1.connection_genes q.2.connection_genes

/-! ## Compatibility distance -/

/-- `Genome.get_average_weight_difference_of_matching_genes`: the loop
counts matching keys and sums absolute weight differences; the final
division fails (`ZeroDivisionError`) when no key matches. -/
def get_average_weight_difference_of_matching_genes (p1 p2 : Genome) : Option Rat :=
  let matching_connections :=
    p1.connection_genes.countP fun kv => dictContains p2.connection_genes kv.1
  let weight_difference :=
    p1.connection_genes.foldl
      (fun w kv =>
        match dictGet p2.connection_genes kv.1 with
        | some v2 => w + |kv.2.weight - v2.weight|
        | none => w)
      0
  if matching_connections = 0 then none
  else some (weight_difference / (matching_connections : Rat))

/-- The normalization divisor `N` of `Genome.get_compatibility_distance`,
exactly as in the source: `1` when both dicts have fewer than 20 genes,
otherwise the first genome's size (both arms of the source ternary
return `len(parent_1_genome.connection_genes)`). -/
def compat_N (p1 p2 : Genome) : Nat :=
  if p1.connection_genes.length < 20 && p2.connection_genes.length < 20 then 1
  else if p1.connection_genes.length > p2.connection_genes.length then
    p1.connection_genes.length
  else p1.connection_genes.length

/-- `Genome.get_compatibility_distance`:
`((c1 * E) + (c2 * D)) / N + (c3 * W)` with `c1 = c2 = 1.0`, `c3 = 0.4`;
`none` when the average weight difference is undefined. -/
def get_compatibility_distance (p1 p2 : Genome) : Option Rat :=
  let E := (get_excess_connections p1 p2).length
  let D := (get_disjoint_connections p1 p2).length
  match get_average_weight_difference_of_matching_genes p1 p2 with
  | none => none
  | some W =>
    some ((((1 : Rat) * E) + ((1 : Rat) * D)) / (compat_N p1 p2 : Rat) + ((2 : Rat) / 5) * W)

/-! ## Basic facts about construction and the operators -/

theorem Genome.make_eq_some {cg : List (Nat × ConnectionGene)} {f : Rat} {g : Genome}
    (h : Genome.make cg f = some g) : g = genomeOf cg f := by
  unfold Genome.make at h
  cases h2 : get_last_innovation_number? cg with
  | none => rw [h2] at h; cases h
  | some x => rw [h2] at h; exact (Option.some_injective _ h).symm

theorem add_node_mutation_fitness (g : Genome) (c : Nat) :
    (add_node_mutation g c).fitness = g.fitness := by
  unfold add_node_mutation
  cases dictGet g.connection_genes c <;> rfl

theorem add_connection_mutation_fitness (g : Genome) (k1 k2 : Nat) (w : Rat) :
    (add_connection_mutation g k1 k2 w).fitness = g.fitness := by
  unfold add_connection_mutation
  split
  · split
    · rfl
    · split <;> rfl
  · rfl

/-- C8: constructing a `Genome` from an empty connection map has no
defined result (the last-innovation-number lookup fails on an empty
map), and construction succeeds exactly on non-empty connection maps. -/
theorem genome_construction_requires_nonempty :
    (∀ f : Rat, Genome.make [] f = none) ∧
    get_last_innovation_number? [] = none ∧
    (∀ (cg : List (Nat × ConnectionGene)) (f : Rat),
      (Genome.make cg f).isSome = true ↔ cg ≠ []) := by
  refine ⟨fun f => rfl, rfl, fun cg f => ?_⟩
  cases cg with
  | nil => simp [Genome.make, get_last_innovation_number?]
  | cons hd tl => simp [Genome.make, get_last_innovation_number?]

theorem avg_defined_iff (g1 g2 : Genome) :
    (get_average_weight_difference_of_matching_genes g1 g2).isSome = true ↔
      ∃ k, k ∈ dictKeys g1.connection_genes ∧ k ∈ dictKeys g2.connection_genes := by
  have hiff :
      ¬((g1.connection_genes.countP fun kv => dictContains g2.connection_genes kv.1) = 0) ↔
      ∃ k, k ∈ dictKeys g1.connection_genes ∧ k ∈ dictKeys g2.connection_genes := by
    rw [List.countP_eq_zero]
    push_neg
    constructor
    · rintro ⟨kv, hm, hc⟩
      exact ⟨kv.1, fst_mem_dictKeys hm, dictContains_iff.mp hc⟩
    · rintro ⟨k, h1, h2⟩
      rcases mem_dictKeys_iff.mp h1 with ⟨v, hv⟩
      exact ⟨(k, v), hv, dictContains_iff.mpr h2⟩
  unfold get_average_weight_difference_of_matching_genes
  by_cases h : (g1.connection_genes.countP fun kv => dictContains g2.connection_genes kv.1) = 0
  · rw [← hiff]
    simp [h]
  · rw [← hiff]
    simp [h]

/-- C9: the compatibility distance is undefined (the average weight
difference divides by zero) exactly when the two genomes share no
innovation number, and is defined whenever at least one innovation
number matches. -/
theorem compatibility_distance_defined_iff_matching (g1 g2 : Genome) :
    ((get_compatibility_distance g1 g2).isSome = true ↔
      ∃ k, k ∈ dictKeys g1.connection_genes ∧ k ∈ dictKeys g2.connection_genes) ∧
    ((get_average_weight_difference_of_matching_genes g1 g2).isSome = true ↔
      ∃ k, k ∈ dictKeys g1.connection_genes ∧ k ∈ dictKeys g2.connection_genes) := by
  refine ⟨?_, avg_defined_iff g1 g2⟩
  rw [← avg_defined_iff g1 g2]
  unfold get_compatibility_distance
  cases h : get_average_weight_difference_of_matching_genes g1 g2 <;> simp [h]

/-- C10: every genome produced by `crossover` carries the default
fitness `0`, whatever the parents' fitness values are. -/
theorem crossover_child_fitness_zero (p1 p2 : Genome) (r : CrossRand) (c : Genome)
    (h : crossover p1 p2 r = some c) : c.fitness = 0 := by
  unfold crossover at h
  cases hmk : Genome.make (get_child_connections p1 p2 r.geneCoin) 0 with
  | none => rw [hmk] at h; cases h
  | some child =>
    rw [hmk] at h
    simp only [Option.some.injEq] at h
    have hfit : child.fitness = 0 := by rw [Genome.make_eq_some hmk]; rfl
    rw [← h]
    by_cases hn : r.doNodeMut <;> by_cases hc2 : r.doConnMut <;>
      simp [hn, hc2, add_connection_mutation_fitness, add_node_mutation_fitness, hfit]

def CP1 : Genome := genomeOf [(1, ⟨1, 4, 1, true, 1⟩)] 7

def CP2 : Genome := genomeOf [(1, ⟨1, 4, 2, true, 1⟩)] 7

def CR10 : CrossRand := ⟨fun _ => true, false, 0, false, 0, 0, 0⟩

theorem crossover_child_fitness_zero_witness :
    (genomeOf [(1, ⟨1, 4, 1, true, 1⟩)] 0).fitness = 0 :=
  crossover_child_fitness_zero CP1 CP2 CR10 (genomeOf [(1, ⟨1, 4, 1, true, 1⟩)] 0) (by decide)

/-- C7: when the drawn pair of distinct nodes is already joined by a
connection in either orientation, `add_connection_mutation` returns the
genome entirely unchanged. -/
theorem add_connection_mutation_duplicate_noop (g : Genome) (k1 k2 : Nat) (w : Rat)
    (node_1 node_2 : NodeGene)
    (h1 : dictGet g.nodes k1 = some node_1) (h2 : dictGet g.nodes k2 = some node_2)
    (hne : node_1 ≠ node_2)
    (hex : connectionExistsBetween g.connection_genes node_1.id node_2.id = true) :
    add_connection_mutation g k1 k2 w = g := by
  unfold add_connection_mutation
  rw [h1, h2]
  simp [hne, hex]

def G7 : Genome := genomeOf [(1, ⟨1, 4, 1, true, 1⟩)] 0

theorem add_connection_mutation_duplicate_noop_witness :
    add_connection_mutation G7 1 4 0 = G7 :=
  add_connection_mutation_duplicate_noop G7 1 4 0 ⟨1, NodeType.INPUT⟩ ⟨4, NodeType.OUTPUT⟩
    (by decide) (by decide) (by decide) (by decide)

def GBugC2 : Genome := genomeOf [(1, ⟨1, 6, 7, true, 1⟩)] 0

/-- C2: evaluation at the failing input.  The genome built from the
single connection `1 → 6` has the five nodes `{1,2,3,4,6}`, and
`total_nodes() + 1 = 6` collides with the existing hidden node, so
`add_node_mutation` leaves the node count at `5` instead of raising it
to `6`; the connection-count/disable/weight part of the claim does hold
here (the old gene is disabled, the first new connection has weight
`1.0`, the second carries the old weight `7`). -/
theorem add_node_mutation_node_count_collision :
    GBugC2.nodes.length = 5 ∧
    (add_node_mutation GBugC2 1).nodes.length = 5 ∧
    (add_node_mutation GBugC2 1).connection_genes.length = 3 ∧
    dictGet (add_node_mutation GBugC2 1).connection_genes 1 =
      some { in_node := 1, out_node := 6, weight := 7, enabled := false,
             innovation_number := 1 } ∧
    dictGet (add_node_mutation GBugC2 1).connection_genes 2 =
      some { in_node := 1, out_node := 6, weight := 1, enabled := true,
             innovation_number := 2 } ∧
    dictGet (add_node_mutation GBugC2 1).connection_genes 3 =
      some { in_node := 6, out_node := 6, weight := 7, enabled := true,
             innovation_number := 3 } := by
  decide

def C3small : Genome := genomeOf ((List.range 5).map fun i => (i + 1, ⟨1, 4, 1, true, i + 1⟩)) 0

def C3big : Genome := genomeOf ((List.range 25).map fun i => (i + 1, ⟨1, 4, 1, true, i + 1⟩)) 0

/-- C3: evaluation at the failing input.  With 5 and 25 connection genes
the normalization applies, yet `N` comes out as the first argument's
size `5`, not the larger size `25`: both arms of the source ternary
return `len(parent_1_genome.connection_genes)`. -/
theorem compat_N_uses_first_size :
    C3small.connection_genes.length = 5 ∧
    C3big.connection_genes.length = 25 ∧
    compat_N C3small C3big = 5 ∧
    compat_N C3big C3small = 25 := by
  decide

def XG1 : Genome :=
  genomeOf [(1, ⟨1, 4, 1, true, 1⟩), (2, ⟨2, 4, 1, true, 2⟩), (3, ⟨3, 4, 1, true, 3⟩)] 0

def XG2 : Genome := genomeOf [(1, ⟨1, 4, 1, true, 1⟩), (100, ⟨2, 4, 1, true, 100⟩)] 0

/-- C1 counterexample: with genomes holding innovation numbers `{1,2,3}`
and `{1,100}`, the number `100` is classified both as disjoint (the
second loop of `get_disjoint_connections` takes every key unique to the
size-wise shorter genome, with no range check) and as excess (it lies
beyond the other genome's last innovation number), so the three classes
do not partition the union. -/
theorem gene_classification_overlap :
    100 ∈ dictKeys (get_disjoint_connections XG1 XG2) ∧
    100 ∈ dictKeys (get_excess_connections XG1 XG2) := by
  decide

def XA6 : Genome := genomeOf [(1, ⟨1, 4, 1, true, 1⟩), (2, ⟨2, 4, 1, true, 2⟩)] 0

def XB6 : Genome := genomeOf [(1, ⟨1, 4, 1, true, 1⟩), (5, ⟨2, 4, 1, true, 5⟩)] 0

/-- C6 counterexample: two genomes with equally many connection genes
(`{1,2}` and `{1,5}`) but different maxima classify disjoint genes
order-dependently: one argument order yields `{2}`, the other `{2,5}`. -/
theorem disjoint_order_dependent_equal_sizes :
    XA6.connection_genes.length = XB6.connection_genes.length ∧
    dictKeys (get_disjoint_connections XA6 XB6) = [2] ∧
    dictKeys (get_disjoint_connections XB6 XA6) = [2, 5] := by
  decide

def XP1 : Genome := genomeOf [(1, ⟨1, 4, 1, true, 1⟩)] 0

def XP2 : Genome := genomeOf [(1, ⟨1, 4, 1, true, 1⟩)] 0

def XR4 : CrossRand := ⟨fun _ => true, true, 1, false, 0, 0, 0⟩

/-- C4 counterexample: for equal-fitness parents both holding exactly
innovation number `1`, the randomness outcome that applies the node
mutation yields a child with innovation numbers `{1,2,3}`, not the
union `{1}`. -/
theorem crossover_adds_new_innovations :
    XP1.fitness = XP2.fitness ∧
    dictKeys XP1.connection_genes = [1] ∧
    dictKeys XP2.connection_genes = [1] ∧
    (crossover XP1 XP2 XR4).map (fun c => dictKeys c.connection_genes) = some [1, 2, 3] := by
  decide

/-! ## Key-set characterizations of the alignment operators -/

theorem dictContains_eq_false_iff {α : Type} {d : List (Nat × α)} {k : Nat} :
    dictContains d k = false ↔ k ∉ dictKeys d := by
  rw [← dictContains_iff]
  cases dictContains d k <;> simp

theorem mem_keys_matching (p1 p2 : Genome) (coin : Nat → Bool) (k : Nat) :
    k ∈ dictKeys (get_matching_connections p1 p2 coin) ↔
      k ∈ dictKeys p1.connection_genes ∧ k ∈ dictKeys p2.connection_genes := by
  have h := foldl_guard_insert_keys p1.connection_genes []
    (fun k2 => dictContains p2.connection_genes k2) (childPick p2.connection_genes coin) k
  exact h.trans (by simp [dictContains_iff])

theorem mem_keys_disjointFrom (cgP cgQ : List (Nat × ConnectionGene)) (k : Nat) :
    k ∈ dictKeys (disjointFrom cgP cgQ) ↔
      (k ∈ dictKeys cgP ∧ k ∉ dictKeys cgQ ∧ k < lastInnovD cgQ) ∨
      (k ∈ dictKeys cgQ ∧ k ∉ dictKeys cgP) := by
  have h1 := foldl_guard_insert_keys cgP []
    (fun k2 => !dictContains cgQ k2 && decide (k2 < lastInnovD cgQ)) Prod.snd k
  have h2 := foldl_guard_insert_keys cgQ
    (cgP.foldl
      (fun d kv =>
        if !dictContains cgQ kv.1 && decide (kv.1 < lastInnovD cgQ) then dictInsert d kv.1 kv.2
        else d)
      [])
    (fun k2 => !dictContains cgP k2) Prod.snd k
  rw [h1] at h2
  refine h2.trans ?_
  simp only [dictKeys_nil, List.not_mem_nil, false_or, Bool.and_eq_true, Bool.not_eq_true',
    decide_eq_true_eq, dictContains_eq_false_iff]

theorem mem_keys_disjoint (p1 p2 : Genome) (k : Nat) :
    k ∈ dictKeys (get_disjoint_connections p1 p2) ↔
      (k ∈ dictKeys (sizeCanon p1 p2).1.connection_genes ∧
       k ∉ dictKeys (sizeCanon p1 p2).2.connection_genes ∧
       k < lastInnovD (sizeCanon p1 p2).2.connection_genes) ∨
      (k ∈ dictKeys (sizeCanon p1 p2).2.connection_genes ∧
       k ∉ dictKeys (sizeCanon p1 p2).1.connection_genes) :=
  mem_keys_disjointFrom _ _ k

theorem mem_keys_excessFrom (cgP cgQ : List (Nat × ConnectionGene)) (k : Nat) :
    k ∈ dictKeys (excessFrom cgP cgQ) ↔ k ∈ dictKeys cgP ∧ lastInnovD cgQ < k := by
  have h := foldl_guard_insert_keys cgP []
    (fun k2 => decide (k2 > lastInnovD cgQ)) Prod.snd k
  exact h.trans (by simp)

theorem maxCanon_eq_left {g1 g2 : Genome}
    (h : lastInnovD g2.connection_genes < lastInnovD g1.connection_genes) :
    maxCanon g1 g2 = (g1, g2) := by
  unfold maxCanon
  rw [if_pos h]

theorem maxCanon_eq_right {g1 g2 : Genome}
    (h : ¬lastInnovD g2.connection_genes < lastInnovD g1.connection_genes) :
    maxCanon g1 g2 = (g2, g1) := by
  unfold maxCanon
  rw [if_neg h]

/-- The excess key set, written symmetrically in the two genomes: keys
of one genome strictly beyond the other genome's last innovation
number. -/
theorem mem_keys_excess_sym (g1 g2 : Genome) (k : Nat) :
    k ∈ dictKeys (get_excess_connections g1 g2) ↔
      ((k ∈ dictKeys g1.connection_genes ∧ lastInnovD g2.connection_genes < k) ∨
       (k ∈ dictKeys g2.connection_genes ∧ lastInnovD g1.connection_genes < k)) := by
  by_cases hgt : lastInnovD g2.connection_genes < lastInnovD g1.connection_genes
  · have hq : get_excess_connections g1 g2 =
        excessFrom g1.connection_genes g2.connection_genes := by
      simp only [get_excess_connections, maxCanon_eq_left hgt]
    rw [hq, mem_keys_excessFrom]
    constructor
    · rintro ⟨hm, hl⟩
      exact Or.inl ⟨hm, hl⟩
    · rintro (⟨hm, hl⟩ | ⟨hm, hl⟩)
      · exact ⟨hm, hl⟩
      · exact absurd (le_lastInnovD hm) (by omega)
  · have hq : get_excess_connections g1 g2 =
        excessFrom g2.connection_genes g1.connection_genes := by
      simp only [get_excess_connections, maxCanon_eq_right hgt]
    rw [hq, mem_keys_excessFrom]
    constructor
    · rintro ⟨hm, hl⟩
      exact Or.inr ⟨hm, hl⟩
    · rintro (⟨hm, hl⟩ | ⟨hm, hl⟩)
      · exact absurd (le_lastInnovD hm) (by omega)
      · exact ⟨hm, hl⟩

theorem mem_keys_childUnequal (cg1 cg2 : List (Nat × ConnectionGene)) (coin : Nat → Bool)
    (k : Nat) :
    k ∈ dictKeys (childUnequal cg1 cg2 coin) ↔ k ∈ dictKeys cg1 := by
  have h := foldl_insert_keys cg1 [] (childPick cg2 coin) k
  exact h.trans (by simp)

theorem mem_keys_childEqual (cg1 cg2 : List (Nat × ConnectionGene)) (coin : Nat → Bool)
    (k : Nat) :
    k ∈ dictKeys (childEqual cg1 cg2 coin) ↔ k ∈ dictKeys cg1 ∨ k ∈ dictKeys cg2 := by
  have ha := foldl_guard_insert_keys cg1 []
    (fun k2 => !dictContains cg2 k2) Prod.snd k
  have hb := foldl_guard_insert_keys cg2
    (cg1.foldl (fun d kv => if !dictContains cg2 kv.1 then dictInsert d kv.1 kv.2 else d) [])
    (fun k2 => !dictContains cg1 k2) Prod.snd k
  have hc := foldl_guard_insert_keys cg1
    (cg2.foldl (fun d kv => if !dictContains cg1 kv.1 then dictInsert d kv.1 kv.2 else d)
      (cg1.foldl (fun d kv => if !dictContains cg2 kv.1 then dictInsert d kv.1 kv.2 else d) []))
    (fun k2 => dictContains cg1 k2 && dictContains cg2 k2) (childPick cg2 coin) k
  rw [ha] at hb
  rw [hb] at hc
  refine hc.trans ?_
  simp only [dictKeys_nil, List.not_mem_nil, false_or, Bool.and_eq_true, Bool.not_eq_true',
    dictContains_eq_false_iff, dictContains_iff]
  by_cases hk1 : k ∈ dictKeys cg1 <;> by_cases hk2 : k ∈ dictKeys cg2 <;> simp [hk1, hk2]

theorem mem_keys_child (p1 p2 : Genome) (coin : Nat → Bool) (k : Nat) :
    (p1.fitness = p2.fitness →
      (k ∈ dictKeys (get_child_connections p1 p2 coin) ↔
        k ∈ dictKeys p1.connection_genes ∨ k ∈ dictKeys p2.connection_genes)) ∧
    (p2.fitness < p1.fitness →
      (k ∈ dictKeys (get_child_connections p1 p2 coin) ↔ k ∈ dictKeys p1.connection_genes)) ∧
    (p1.fitness < p2.fitness →
      (k ∈ dictKeys (get_child_connections p1 p2 coin) ↔ k ∈ dictKeys p2.connection_genes)) := by
  refine ⟨fun he => ?_, fun hgt => ?_, fun hlt => ?_⟩
  · have hng : ¬p1.fitness > p2.fitness := by rw [he]; exact lt_irrefl _
    have hnl : ¬p1.fitness < p2.fitness := by rw [he]; exact lt_irrefl _
    have hq : fitCanon p1 p2 = (p1, p2) := by
      unfold fitCanon
      rw [if_neg hng, if_neg hnl]
    have heq : get_child_connections p1 p2 coin =
        childEqual p1.connection_genes p2.connection_genes coin := by
      simp only [get_child_connections, hq]
      simp [he]
    rw [heq]
    exact mem_keys_childEqual _ _ coin k
  · have hg : p1.fitness > p2.fitness := hgt
    have hne : p1.fitness ≠ p2.fitness := ne_of_gt hgt
    have hq : fitCanon p1 p2 = (p1, p2) := by
      unfold fitCanon
      rw [if_pos hg]
    have heq : get_child_connections p1 p2 coin =
        childUnequal p1.connection_genes p2.connection_genes coin := by
      simp only [get_child_connections, hq]
      simp [hne]
    rw [heq]
    exact mem_keys_childUnequal _ _ coin k
  · have hng : ¬p1.fitness > p2.fitness := not_lt.mpr (le_of_lt hlt)
    have hne : p2.fitness ≠ p1.fitness := ne_of_gt hlt
    have hq : fitCanon p1 p2 = (p2, p1) := by
      unfold fitCanon
      rw [if_neg hng, if_pos hlt]
    have heq : get_child_connections p1 p2 coin =
        childUnequal p2.connection_genes p1.connection_genes coin := by
      simp only [get_child_connections, hq]
      simp [hne]
    rw [heq]
    exact mem_keys_childUnequal _ _ coin k

/-! ## Amended crossover, order-independence and partition results -/

/-- C4 (amended): gene selection alone is exact — on any randomness
outcome where neither optional mutation fires, the crossover child's
innovation-number set is exactly the union of both parents' sets when
the fitness values are equal, and exactly the strictly fitter parent's
set otherwise.  (The outcomes that apply a mutation add fresh
innovation numbers on top, as the counterexample shows.) -/
theorem crossover_keys_amended (p1 p2 : Genome) (r : CrossRand)
    (hn : r.doNodeMut = false) (hc : r.doConnMut = false) (c : Genome)
    (hcross : crossover p1 p2 r = some c) :
    (p1.fitness = p2.fitness →
      ∀ k, k ∈ dictKeys c.connection_genes ↔
        (k ∈ dictKeys p1.connection_genes ∨ k ∈ dictKeys p2.connection_genes)) ∧
    (p2.fitness < p1.fitness →
      ∀ k, k ∈ dictKeys c.connection_genes ↔ k ∈ dictKeys p1.connection_genes) ∧
    (p1.fitness < p2.fitness →
      ∀ k, k ∈ dictKeys c.connection_genes ↔ k ∈ dictKeys p2.connection_genes) := by
  have hcg : c.connection_genes = get_child_connections p1 p2 r.geneCoin := by
    unfold crossover at hcross
    cases hmk : Genome.make (get_child_connections p1 p2 r.geneCoin) 0 with
    | none => rw [hmk] at hcross; cases hcross
    | some child =>
      rw [hmk] at hcross
      simp only [hn, hc, Bool.false_eq_true, if_false, Option.some.injEq] at hcross
      rw [← hcross, Genome.make_eq_some hmk]
      rfl
  refine ⟨fun he k => ?_, fun hgt k => ?_, fun hlt k => ?_⟩
  · rw [hcg]
    exact (mem_keys_child p1 p2 r.geneCoin k).1 he
  · rw [hcg]
    exact (mem_keys_child p1 p2 r.geneCoin k).2.1 hgt
  · rw [hcg]
    exact (mem_keys_child p1 p2 r.geneCoin k).2.2 hlt

def WP1 : Genome := genomeOf [(1, ⟨1, 4, 1, true, 1⟩), (2, ⟨2, 4, 1, true, 2⟩)] 5

def WP2 : Genome := genomeOf [(1, ⟨1, 4, 2, true, 1⟩)] 3

def WR4 : CrossRand := ⟨fun _ => true, false, 0, false, 0, 0, 0⟩

def WC4 : Genome := genomeOf [(1, ⟨1, 4, 1, true, 1⟩), (2, ⟨2, 4, 1, true, 2⟩)] 0

theorem crossover_keys_amended_witness :
    2 ∈ dictKeys WC4.connection_genes ↔ 2 ∈ dictKeys WP1.connection_genes :=
  (crossover_keys_amended WP1 WP2 WR4 rfl rfl WC4 (by decide)).2.1 (by decide) 2

/-- When the two last innovation numbers agree, `disjointFrom` computes
the symmetric difference of the key sets: every key unique to the first
dict sits strictly below the shared maximum (which is a key of the
second dict), so the range check of the first loop always passes. -/
theorem disjointFrom_symdiff (cgP cgQ : List (Nat × ConnectionGene))
    (hQ : cgQ ≠ []) (hmax : lastInnovD cgP = lastInnovD cgQ) (k : Nat) :
    k ∈ dictKeys (disjointFrom cgP cgQ) ↔
      (k ∈ dictKeys cgP ∧ k ∉ dictKeys cgQ) ∨ (k ∈ dictKeys cgQ ∧ k ∉ dictKeys cgP) := by
  rw [mem_keys_disjointFrom]
  constructor
  · rintro (⟨hp, hnq, _⟩ | ⟨hq, hnp⟩)
    · exact Or.inl ⟨hp, hnq⟩
    · exact Or.inr ⟨hq, hnp⟩
  · rintro (⟨hp, hnq⟩ | ⟨hq, hnp⟩)
    · refine Or.inl ⟨hp, hnq, ?_⟩
      have hub := le_lastInnovD hp
      have hne : k ≠ lastInnovD cgQ := by
        intro hk
        have hmm := lastInnovD_mem hQ
        rw [← hk] at hmm
        exact hnq hmm
      omega
    · exact Or.inr ⟨hq, hnp⟩

/-- C6 (amended): excess classification is order-independent for every
pair of genomes, and disjoint classification is order-independent
whenever the two genomes have equal maximum innovation numbers (both
orders then return the symmetric difference of the key sets), and also
whenever their connection-map sizes differ (both orders then pick the
same reference genome).  Only the equal-sizes disjunct of the claim
fails, when the maxima differ — the counterexample. -/
theorem classification_order_independence_amended (g1 g2 : Genome)
    (h1 : g1.connection_genes ≠ []) (h2 : g2.connection_genes ≠ []) :
    (∀ k, k ∈ dictKeys (get_excess_connections g1 g2) ↔
          k ∈ dictKeys (get_excess_connections g2 g1)) ∧
    (lastInnovD g1.connection_genes = lastInnovD g2.connection_genes →
     ∀ k, k ∈ dictKeys (get_disjoint_connections g1 g2) ↔
          k ∈ dictKeys (get_disjoint_connections g2 g1)) ∧
    (g1.connection_genes.length ≠ g2.connection_genes.length →
     ∀ k, k ∈ dictKeys (get_disjoint_connections g1 g2) ↔
          k ∈ dictKeys (get_disjoint_connections g2 g1)) := by
  have hsame : g1.connection_genes.length ≠ g2.connection_genes.length →
      get_disjoint_connections g1 g2 = get_disjoint_connections g2 g1 := by
    intro hlen
    by_cases hgt : g1.connection_genes.length > g2.connection_genes.length
    · have hn2 : ¬g2.connection_genes.length > g1.connection_genes.length := by omega
      have hs1 : sizeCanon g1 g2 = (g1, g2) := by
        unfold sizeCanon
        rw [if_pos hgt]
      have hs2 : sizeCanon g2 g1 = (g1, g2) := by
        unfold sizeCanon
        rw [if_neg hn2]
      simp only [get_disjoint_connections, hs1, hs2]
    · have hgt2 : g2.connection_genes.length > g1.connection_genes.length := by omega
      have hs1 : sizeCanon g1 g2 = (g2, g1) := by
        unfold sizeCanon
        rw [if_neg hgt]
      have hs2 : sizeCanon g2 g1 = (g2, g1) := by
        unfold sizeCanon
        rw [if_pos hgt2]
      simp only [get_disjoint_connections, hs1, hs2]
  refine ⟨fun k => ?_, fun hmax k => ?_, fun hlen k => ?_⟩
  · rw [mem_keys_excess_sym, mem_keys_excess_sym]
    tauto
  · by_cases hlen : g1.connection_genes.length = g2.connection_genes.length
    · have hn1 : ¬g1.connection_genes.length > g2.connection_genes.length := by omega
      have hn2 : ¬g2.connection_genes.length > g1.connection_genes.length := by omega
      have hs1 : sizeCanon g1 g2 = (g2, g1) := by
        unfold sizeCanon
        rw [if_neg hn1]
      have hs2 : sizeCanon g2 g1 = (g1, g2) := by
        unfold sizeCanon
        rw [if_neg hn2]
      have e1 : get_disjoint_connections g1 g2 =
          disjointFrom g2.connection_genes g1.connection_genes := by
        simp only [get_disjoint_connections, hs1]
      have e2 : get_disjoint_connections g2 g1 =
          disjointFrom g1.connection_genes g2.connection_genes := by
        simp only [get_disjoint_connections, hs2]
      rw [e1, e2, disjointFrom_symdiff _ _ h1 hmax.symm, disjointFrom_symdiff _ _ h2 hmax]
      tauto
    · rw [hsame hlen]
  · rw [hsame hlen]

def WG6a : Genome :=
  genomeOf [(1, ⟨1, 4, 1, true, 1⟩), (3, ⟨2, 4, 1, true, 3⟩), (5, ⟨3, 4, 1, true, 5⟩)] 0

def WG6b : Genome := genomeOf [(2, ⟨1, 4, 2, true, 2⟩), (5, ⟨2, 4, 2, true, 5⟩)] 0

theorem classification_order_independence_amended_witness :
    (1 ∈ dictKeys (get_excess_connections WG6a WG6b) ↔
     1 ∈ dictKeys (get_excess_connections WG6b WG6a)) ∧
    (3 ∈ dictKeys (get_disjoint_connections WG6a WG6b) ↔
     3 ∈ dictKeys (get_disjoint_connections WG6b WG6a)) ∧
    (2 ∈ dictKeys (get_disjoint_connections WG6a WG6b) ↔
     2 ∈ dictKeys (get_disjoint_connections WG6b WG6a)) :=
  ⟨(classification_order_independence_amended WG6a WG6b (by decide) (by decide)).1 1,
   (classification_order_independence_amended WG6a WG6b (by decide) (by decide)).2.1
     (by decide) 3,
   (classification_order_independence_amended WG6a WG6b (by decide) (by decide)).2.2
     (by decide) 2⟩

/-- The partition facts, stated on the pair already ordered the way
`get_disjoint_connections` orders it: coverage of the union, the
unconditional disjointness facts, and disjoint-vs-excess separation
under the hypothesis that the size-wise longer genome also carries the
weakly larger last innovation number. -/
theorem partition_core (P Q : Genome) (hQ : Q.connection_genes ≠ []) :
    (∀ k, (k ∈ dictKeys P.connection_genes ∨ k ∈ dictKeys Q.connection_genes) ↔
      ((k ∈ dictKeys P.connection_genes ∧ k ∈ dictKeys Q.connection_genes) ∨
       k ∈ dictKeys (disjointFrom P.connection_genes Q.connection_genes) ∨
       ((k ∈ dictKeys P.connection_genes ∧ lastInnovD Q.connection_genes < k) ∨
        (k ∈ dictKeys Q.connection_genes ∧ lastInnovD P.connection_genes < k)))) ∧
    (∀ k, ¬((k ∈ dictKeys P.connection_genes ∧ k ∈ dictKeys Q.connection_genes) ∧
            k ∈ dictKeys (disjointFrom P.connection_genes Q.connection_genes))) ∧
    (∀ k, ¬((k ∈ dictKeys P.connection_genes ∧ k ∈ dictKeys Q.connection_genes) ∧
            ((k ∈ dictKeys P.connection_genes ∧ lastInnovD Q.connection_genes < k) ∨
             (k ∈ dictKeys Q.connection_genes ∧ lastInnovD P.connection_genes < k)))) ∧
    (lastInnovD Q.connection_genes ≤ lastInnovD P.connection_genes →
     ∀ k, ¬(k ∈ dictKeys (disjointFrom P.connection_genes Q.connection_genes) ∧
            ((k ∈ dictKeys P.connection_genes ∧ lastInnovD Q.connection_genes < k) ∨
             (k ∈ dictKeys Q.connection_genes ∧ lastInnovD P.connection_genes < k)))) := by
  refine ⟨fun k => ?_, fun k => ?_, fun k => ?_, fun hle k => ?_⟩
  · rw [mem_keys_disjointFrom]
    constructor
    · rintro (hk | hk)
      · by_cases hq : k ∈ dictKeys Q.connection_genes
        · exact Or.inl ⟨hk, hq⟩
        · by_cases hlt : k < lastInnovD Q.connection_genes
          · exact Or.inr (Or.inl (Or.inl ⟨hk, hq, hlt⟩))
          · have hne : k ≠ lastInnovD Q.connection_genes := by
              intro hk2
              have hmm := lastInnovD_mem hQ
              rw [← hk2] at hmm
              exact hq hmm
            exact Or.inr (Or.inr (Or.inl ⟨hk, by omega⟩))
      · by_cases hp : k ∈ dictKeys P.connection_genes
        · exact Or.inl ⟨hp, hk⟩
        · exact Or.inr (Or.inl (Or.inr ⟨hk, hp⟩))
    · rintro (⟨hp, _⟩ | (⟨hp, _, _⟩ | ⟨hq, _⟩) | (⟨hp, _⟩ | ⟨hq, _⟩))
      · exact Or.inl hp
      · exact Or.inl hp
      · exact Or.inr hq
      · exact Or.inl hp
      · exact Or.inr hq
  · rw [mem_keys_disjointFrom]
    rintro ⟨⟨hp, hq⟩, (⟨_, hnq, _⟩ | ⟨_, hnp⟩)⟩
    · exact hnq hq
    · exact hnp hp
  · rintro ⟨⟨hp, hq⟩, (⟨_, hl⟩ | ⟨_, hl⟩)⟩
    · have hub := le_lastInnovD hq
      omega
    · have hub := le_lastInnovD hp
      omega
  · rw [mem_keys_disjointFrom]
    rintro ⟨(⟨hp, hnq, hlt⟩ | ⟨hq, hnp⟩), he⟩
    · rcases he with ⟨_, hl⟩ | ⟨hq2, _⟩
      · omega
      · exact hnq hq2
    · have hub := le_lastInnovD hq
      rcases he with ⟨hp2, _⟩ | ⟨_, hl⟩
      · exact hnp hp2
      · omega

/-- C1 (amended): the matching, disjoint and excess key sets always
cover the union of the two genomes' innovation numbers; the matching
set never meets the other two; and disjoint and excess are separated
whenever the genome `get_disjoint_connections` treats as the longer one
also has the weakly larger last innovation number.  (When the size-wise
shorter genome's maximum exceeds the longer genome's, its unique genes
beyond the longer genome's maximum land in both the disjoint and the
excess sets — the counterexample.) -/
theorem gene_classification_partition_amended (g1 g2 : Genome) (coin : Nat → Bool)
    (h1 : g1.connection_genes ≠ []) (h2 : g2.connection_genes ≠ []) :
    (∀ k, (k ∈ dictKeys g1.connection_genes ∨ k ∈ dictKeys g2.connection_genes) ↔
      (k ∈ dictKeys (get_matching_connections g1 g2 coin) ∨
       k ∈ dictKeys (get_disjoint_connections g1 g2) ∨
       k ∈ dictKeys (get_excess_connections g1 g2))) ∧
    (∀ k, ¬(k ∈ dictKeys (get_matching_connections g1 g2 coin) ∧
            k ∈ dictKeys (get_disjoint_connections g1 g2))) ∧
    (∀ k, ¬(k ∈ dictKeys (get_matching_connections g1 g2 coin) ∧
            k ∈ dictKeys (get_excess_connections g1 g2))) ∧
    (lastInnovD (sizeCanon g1 g2).2.connection_genes ≤
       lastInnovD (sizeCanon g1 g2).1.connection_genes →
     ∀ k, ¬(k ∈ dictKeys (get_disjoint_connections g1 g2) ∧
            k ∈ dictKeys (get_excess_connections g1 g2))) := by
  by_cases hlen : g1.connection_genes.length > g2.connection_genes.length
  · have hs : sizeCanon g1 g2 = (g1, g2) := by
      unfold sizeCanon
      rw [if_pos hlen]
    have hd : get_disjoint_connections g1 g2 =
        disjointFrom g1.connection_genes g2.connection_genes := by
      simp only [get_disjoint_connections, hs]
    have hcore := partition_core g1 g2 h2
    rw [hs]
    refine ⟨fun k => ?_, fun k => ?_, fun k => ?_, fun hle k => ?_⟩
    · rw [mem_keys_matching, hd, mem_keys_excess_sym]
      exact hcore.1 k
    · rw [mem_keys_matching, hd]
      exact hcore.2.1 k
    · rw [mem_keys_matching, mem_keys_excess_sym]
      exact hcore.2.2.1 k
    · rw [hd, mem_keys_excess_sym]
      exact hcore.2.2.2 hle k
  · have hs : sizeCanon g1 g2 = (g2, g1) := by
      unfold sizeCanon
      rw [if_neg hlen]
    have hd : get_disjoint_connections g1 g2 =
        disjointFrom g2.connection_genes g1.connection_genes := by
      simp only [get_disjoint_connections, hs]
    have hcore := partition_core g2 g1 h1
    rw [hs]
    refine ⟨fun k => ?_, fun k => ?_, fun k => ?_, fun hle k => ?_⟩
    · rw [mem_keys_matching, hd, mem_keys_excess_sym]
      have hck := hcore.1 k
      tauto
    · rw [mem_keys_matching, hd]
      have hck := hcore.2.1 k
      tauto
    · rw [mem_keys_matching, mem_keys_excess_sym]
      have hck := hcore.2.2.1 k
      tauto
    · rw [hd, mem_keys_excess_sym]
      have hck := hcore.2.2.2 hle k
      tauto

def WQ1 : Genome :=
  genomeOf [(1, ⟨1, 4, 1, true, 1⟩), (2, ⟨2, 4, 1, true, 2⟩), (3, ⟨3, 4, 1, true, 3⟩)] 0

def WQ2 : Genome := genomeOf [(1, ⟨1, 4, 2, true, 1⟩), (2, ⟨2, 4, 2, true, 2⟩)] 0

theorem gene_classification_partition_amended_witness :
    ((3 ∈ dictKeys WQ1.connection_genes ∨ 3 ∈ dictKeys WQ2.connection_genes) ↔
      (3 ∈ dictKeys (get_matching_connections WQ1 WQ2 (fun _ => true)) ∨
       3 ∈ dictKeys (get_disjoint_connections WQ1 WQ2) ∨
       3 ∈ dictKeys (get_excess_connections WQ1 WQ2))) ∧
    ¬(3 ∈ dictKeys (get_disjoint_connections WQ1 WQ2) ∧
      3 ∈ dictKeys (get_excess_connections WQ1 WQ2)) :=
  ⟨(gene_classification_partition_amended WQ1 WQ2 (fun _ => true) (by decide) (by decide)).1 3,
   (gene_classification_partition_amended WQ1 WQ2 (fun _ => true) (by decide)
     (by decide)).2.2.2 (by decide) 3⟩

/-! ## Endpoint closure (the node-resolution invariant) -/

/-- Every connection endpoint resolves to a key of the genome's node
map. -/
def EndpointsValid (g : Genome) : Prop :=
  ∀ kv ∈ g.connection_genes,
    kv.2.in_node ∈ dictKeys g.nodes ∧ kv.2.out_node ∈ dictKeys g.nodes

/-- Every node-map entry is stored under its own id (always true of
genomes built and mutated through the public interface). -/
def NodesKeyed (g : Genome) : Prop :=
  ∀ kv ∈ g.nodes, kv.2.id = kv.1

theorem mem_addHiddenIfNew {d : List (Nat × NodeGene)} {nid : Nat} {kv : Nat × NodeGene}
    (h : kv ∈ addHiddenIfNew d nid) : kv ∈ d ∨ kv = (nid, ⟨nid, NodeType.HIDDEN⟩) := by
  unfold addHiddenIfNew at h
  split at h
  · exact Or.inl h
  · split at h
    · exact Or.inl h
    · exact mem_dictInsert h

theorem keys_addHiddenIfNew_mono {d : List (Nat × NodeGene)} (nid : Nat) {k : Nat}
    (h : k ∈ dictKeys d) : k ∈ dictKeys (addHiddenIfNew d nid) := by
  unfold addHiddenIfNew
  split
  · exact h
  · split
    · exact h
    · exact (mem_dictKeys_dictInsert d nid _ k).mpr (Or.inr h)

theorem addHiddenIfNew_covers (d : List (Nat × NodeGene)) (nid : Nat) :
    nid ∈ dictKeys input_nodes ∨ nid ∈ dictKeys output_nodes ∨
    nid ∈ dictKeys (addHiddenIfNew d nid) := by
  by_cases hi : dictContains input_nodes nid = true
  · exact Or.inl (dictContains_iff.mp hi)
  · by_cases ho : dictContains output_nodes nid = true
    · exact Or.inr (Or.inl (dictContains_iff.mp ho))
    · refine Or.inr (Or.inr ?_)
      unfold addHiddenIfNew
      rw [if_neg (by simp [hi, ho])]
      split
      · exact dictContains_iff.mp (by assumption)
      · exact (mem_dictKeys_dictInsert d nid _ nid).mpr (Or.inl rfl)

theorem generate_nodes_mem_aux (cg : List (Nat × ConnectionGene)) :
    ∀ d0 : List (Nat × NodeGene),
      (∀ kv2 ∈ d0, kv2.2 = (⟨kv2.1, NodeType.HIDDEN⟩ : NodeGene)) →
      ∀ kv ∈ cg.foldl
        (fun nodes kv3 => addHiddenIfNew (addHiddenIfNew nodes kv3.2.in_node) kv3.2.out_node) d0,
      kv.2 = (⟨kv.1, NodeType.HIDDEN⟩ : NodeGene) := by
  induction cg with
  | nil =>
    intro d0 hd0 kv hm
    exact hd0 kv hm
  | cons hd tl ih =>
    intro d0 hd0 kv hm
    simp only [List.foldl_cons] at hm
    refine ih _ ?_ kv hm
    intro kv3 hm3
    rcases mem_addHiddenIfNew hm3 with hm4 | hm4
    · rcases mem_addHiddenIfNew hm4 with hm5 | hm5
      · exact hd0 kv3 hm5
      · rw [hm5]
    · rw [hm4]

theorem generate_nodes_mem {cg : List (Nat × ConnectionGene)} {kv : Nat × NodeGene}
    (h : kv ∈ generate_nodes cg) : kv.2 = (⟨kv.1, NodeType.HIDDEN⟩ : NodeGene) :=
  generate_nodes_mem_aux cg [] (by simp) kv h

theorem foldgen_keys_mono {cg : List (Nat × ConnectionGene)} {d0 : List (Nat × NodeGene)}
    {k : Nat} (h : k ∈ dictKeys d0) :
    k ∈ dictKeys (cg.foldl
      (fun nodes kv => addHiddenIfNew (addHiddenIfNew nodes kv.2.in_node) kv.2.out_node) d0) := by
  induction cg generalizing d0 with
  | nil => exact h
  | cons hd tl ih =>
    simp only [List.foldl_cons]
    exact ih (keys_addHiddenIfNew_mono _ (keys_addHiddenIfNew_mono _ h))

theorem generate_nodes_cover_aux (cg : List (Nat × ConnectionGene)) :
    ∀ (d0 : List (Nat × NodeGene)) (kc : Nat × ConnectionGene), kc ∈ cg →
      (kc.2.in_node ∈ dictKeys input_nodes ∨ kc.2.in_node ∈ dictKeys output_nodes ∨
       kc.2.in_node ∈ dictKeys (cg.foldl
         (fun nodes kv => addHiddenIfNew (addHiddenIfNew nodes kv.2.in_node) kv.2.out_node) d0)) ∧
      (kc.2.out_node ∈ dictKeys input_nodes ∨ kc.2.out_node ∈ dictKeys output_nodes ∨
       kc.2.out_node ∈ dictKeys (cg.foldl
         (fun nodes kv => addHiddenIfNew (addHiddenIfNew nodes kv.2.in_node) kv.2.out_node) d0)) := by
  induction cg with
  | nil =>
    intro d0 kc hm
    simp at hm
  | cons hd tl ih =>
    intro d0 kc hm
    simp only [List.foldl_cons]
    rcases List.mem_cons.mp hm with hm | hm
    · subst hm
      constructor
      · rcases addHiddenIfNew_covers d0 kc.2.in_node with h | h | h
        · exact Or.inl h
        · exact Or.inr (Or.inl h)
        · exact Or.inr (Or.inr (foldgen_keys_mono (keys_addHiddenIfNew_mono _ h)))
      · rcases addHiddenIfNew_covers (addHiddenIfNew d0 kc.2.in_node) kc.2.out_node
          with h | h | h
        · exact Or.inl h
        · exact Or.inr (Or.inl h)
        · exact Or.inr (Or.inr (foldgen_keys_mono h))
    · exact ih _ kc hm

theorem mem_keys_genomeOf_nodes (cg : List (Nat × ConnectionGene)) (f : Rat) (k : Nat) :
    k ∈ dictKeys (genomeOf cg f).nodes ↔
      k ∈ dictKeys input_nodes ∨ k ∈ dictKeys (generate_nodes cg) ∨
      k ∈ dictKeys output_nodes := by
  show k ∈ dictKeys (dictMerge (dictMerge input_nodes (generate_nodes cg)) output_nodes) ↔ _
  rw [mem_dictKeys_dictMerge, mem_dictKeys_dictMerge]
  tauto

theorem genomeOf_valid (cg : List (Nat × ConnectionGene)) (f : Rat) :
    EndpointsValid (genomeOf cg f) ∧ NodesKeyed (genomeOf cg f) := by
  constructor
  · intro kv hm
    have hker :
        (kv.2.in_node ∈ dictKeys input_nodes ∨ kv.2.in_node ∈ dictKeys output_nodes ∨
         kv.2.in_node ∈ dictKeys (generate_nodes cg)) ∧
        (kv.2.out_node ∈ dictKeys input_nodes ∨ kv.2.out_node ∈ dictKeys output_nodes ∨
         kv.2.out_node ∈ dictKeys (generate_nodes cg)) :=
      generate_nodes_cover_aux cg [] kv hm
    constructor
    · rw [mem_keys_genomeOf_nodes]
      tauto
    · rw [mem_keys_genomeOf_nodes]
      tauto
  · intro kv hm
    rcases mem_dictMerge hm with hm2 | hm2
    · rcases mem_dictMerge hm2 with hm3 | hm3
      · simp only [input_nodes, List.mem_cons, List.not_mem_nil, or_false] at hm3
        rcases hm3 with h | h | h <;> rw [h]
      · rw [generate_nodes_mem hm3]
    · simp only [output_nodes, List.mem_cons, List.not_mem_nil, or_false] at hm2
      rw [hm2]

theorem add_connection_mutation_cases (g : Genome) (k1 k2 : Nat) (w : Rat) :
    add_connection_mutation g k1 k2 w = g ∨
    ∃ n1 n2 : NodeGene, dictGet g.nodes k1 = some n1 ∧ dictGet g.nodes k2 = some n2 ∧
      add_connection_mutation g k1 k2 w =
        { g with
          connection_genes := dictInsert g.connection_genes
            (g.innovation_number_generator + 1)
            { in_node := if layeringReversed n1 n2 then n2.id else n1.id
              out_node := if layeringReversed n1 n2 then n1.id else n2.id
              weight := w
              enabled := true
              innovation_number := g.innovation_number_generator + 1 }
          innovation_number_generator := g.innovation_number_generator + 1 } := by
  cases h1 : dictGet g.nodes k1 with
  | none =>
    refine Or.inl ?_
    unfold add_connection_mutation
    rw [h1]
  | some n1 =>
    cases h2 : dictGet g.nodes k2 with
    | none =>
      refine Or.inl ?_
      unfold add_connection_mutation
      rw [h1, h2]
    | some n2 =>
      have hred : add_connection_mutation g k1 k2 w =
          (if n1 = n2 then g
           else if connectionExistsBetween g.connection_genes n1.id n2.id = true then g
           else
             { g with
               connection_genes := dictInsert g.connection_genes
                 (g.innovation_number_generator + 1)
                 { in_node := if layeringReversed n1 n2 then n2.id else n1.id
                   out_node := if layeringReversed n1 n2 then n1.id else n2.id
                   weight := w
                   enabled := true
                   innovation_number := g.innovation_number_generator + 1 }
               innovation_number_generator := g.innovation_number_generator + 1 }) := by
        unfold add_connection_mutation
        rw [h1, h2]
        rfl
      by_cases hne : n1 = n2
      · rw [hred, if_pos hne]
        exact Or.inl rfl
      · by_cases hex : connectionExistsBetween g.connection_genes n1.id n2.id = true
        · rw [hred, if_neg hne, if_pos hex]
          exact Or.inl rfl
        · rw [hred, if_neg hne, if_neg hex]
          exact Or.inr ⟨n1, n2, rfl, rfl, rfl⟩

theorem add_connection_mutation_valid (g : Genome) (k1 k2 : Nat) (w : Rat)
    (hE : EndpointsValid g) (hN : NodesKeyed g) :
    EndpointsValid (add_connection_mutation g k1 k2 w) ∧
    NodesKeyed (add_connection_mutation g k1 k2 w) := by
  rcases add_connection_mutation_cases g k1 k2 w with h | ⟨n1, n2, hg1, hg2, h⟩
  · rw [h]
    exact ⟨hE, hN⟩
  · rw [h]
    have hmem1 := dictGet_mem hg1
    have hmem2 := dictGet_mem hg2
    have hk1 : n1.id ∈ dictKeys g.nodes := by
      have hid := hN _ hmem1
      rw [show n1.id = (k1, n1).2.id from rfl, hid]
      exact fst_mem_dictKeys hmem1
    have hk2 : n2.id ∈ dictKeys g.nodes := by
      have hid := hN _ hmem2
      rw [show n2.id = (k2, n2).2.id from rfl, hid]
      exact fst_mem_dictKeys hmem2
    constructor
    · intro kv hm
      rcases mem_dictInsert hm with hm2 | hm2
      · exact hE kv hm2
      · rw [hm2]
        by_cases hr : layeringReversed n1 n2 = true
        · simp only [hr, if_true, ite_true]
          exact ⟨hk2, hk1⟩
        · simp only [hr, if_false, ite_false]
          exact ⟨hk1, hk2⟩
    · intro kv hm
      exact hN kv hm

theorem add_node_mutation_cases (g : Genome) (choice : Nat) :
    add_node_mutation g choice = g ∨
    ∃ old : ConnectionGene, dictGet g.connection_genes choice = some old ∧
      add_node_mutation g choice =
        { g with
          connection_genes :=
            dictInsert
              (dictInsert
                (dictInsert g.connection_genes choice { old with enabled := false })
                (g.innovation_number_generator + 1)
                { in_node := old.in_node, out_node := total_nodes g + 1, weight := 1,
                  enabled := true, innovation_number := g.innovation_number_generator + 1 })
              (g.innovation_number_generator + 2)
              { in_node := total_nodes g + 1, out_node := old.out_node, weight := old.weight,
                enabled := true, innovation_number := g.innovation_number_generator + 2 }
          nodes := dictInsert g.nodes (total_nodes g + 1) ⟨total_nodes g + 1, NodeType.HIDDEN⟩
          innovation_number_generator := g.innovation_number_generator + 2 } := by
  cases h : dictGet g.connection_genes choice with
  | none =>
    refine Or.inl ?_
    unfold add_node_mutation
    rw [h]
  | some old =>
    refine Or.inr ⟨old, rfl, ?_⟩
    unfold add_node_mutation
    rw [h]
    rfl

theorem add_node_mutation_valid (g : Genome) (choice : Nat)
    (hE : EndpointsValid g) (hN : NodesKeyed g) :
    EndpointsValid (add_node_mutation g choice) ∧ NodesKeyed (add_node_mutation g choice) := by
  rcases add_node_mutation_cases g choice with h | ⟨old, hold, h⟩
  · rw [h]
    exact ⟨hE, hN⟩
  · rw [h]
    have hmono : ∀ k : Nat, k ∈ dictKeys g.nodes →
        k ∈ dictKeys (dictInsert g.nodes (total_nodes g + 1)
          (⟨total_nodes g + 1, NodeType.HIDDEN⟩ : NodeGene)) :=
      fun k hk => (mem_dictKeys_dictInsert g.nodes (total_nodes g + 1) _ k).mpr (Or.inr hk)
    have hnew : (total_nodes g + 1) ∈ dictKeys (dictInsert g.nodes (total_nodes g + 1)
        (⟨total_nodes g + 1, NodeType.HIDDEN⟩ : NodeGene)) :=
      (mem_dictKeys_dictInsert g.nodes (total_nodes g + 1) _ _).mpr (Or.inl rfl)
    have hends := hE _ (dictGet_mem hold)
    constructor
    · intro kv hm
      rcases mem_dictInsert hm with hm2 | hm2
      · rcases mem_dictInsert hm2 with hm3 | hm3
        · rcases mem_dictInsert hm3 with hm4 | hm4
          · exact ⟨hmono _ (hE kv hm4).1, hmono _ (hE kv hm4).2⟩
          · rw [hm4]
            exact ⟨hmono _ hends.1, hmono _ hends.2⟩
        · rw [hm3]
          exact ⟨hmono _ hends.1, hnew⟩
      · rw [hm2]
        exact ⟨hnew, hmono _ hends.2⟩
    · intro kv hm
      rcases mem_dictInsert hm with hm2 | hm2
      · exact hN kv hm2
      · rw [hm2]

/-- C5: every genome reachable through the public interface satisfies
the endpoint-resolution invariant: construction from a connection map
establishes it (together with id-keyed nodes), both in-place mutation
operators preserve it, and every crossover child satisfies it. -/
theorem genome_endpoints_closed :
    (∀ (cg : List (Nat × ConnectionGene)) (f : Rat) (g : Genome),
       Genome.make cg f = some g → EndpointsValid g ∧ NodesKeyed g) ∧
    (∀ (g : Genome) (k1 k2 : Nat) (w : Rat), EndpointsValid g → NodesKeyed g →
       EndpointsValid (add_connection_mutation g k1 k2 w) ∧
       NodesKeyed (add_connection_mutation g k1 k2 w)) ∧
    (∀ (g : Genome) (choice : Nat), EndpointsValid g → NodesKeyed g →
       EndpointsValid (add_node_mutation g choice) ∧
       NodesKeyed (add_node_mutation g choice)) ∧
    (∀ (p1 p2 : Genome) (r : CrossRand) (c : Genome),
       crossover p1 p2 r = some c → EndpointsValid c ∧ NodesKeyed c) := by
  have hmk : ∀ (cg : List (Nat × ConnectionGene)) (f : Rat) (g : Genome),
      Genome.make cg f = some g → EndpointsValid g ∧ NodesKeyed g := by
    intro cg f g h
    rw [Genome.make_eq_some h]
    exact genomeOf_valid cg f
  refine ⟨hmk, fun g k1 k2 w => add_connection_mutation_valid g k1 k2 w,
          fun g choice => add_node_mutation_valid g choice, ?_⟩
  intro p1 p2 r c h
  unfold crossover at h
  cases hmk2 : Genome.make (get_child_connections p1 p2 r.geneCoin) 0 with
  | none =>
    rw [hmk2] at h
    cases h
  | some child =>
    rw [hmk2] at h
    simp only [Option.some.injEq] at h
    have hchild := hmk _ _ _ hmk2
    rw [← h]
    by_cases hn : r.doNodeMut = true <;> by_cases hc : r.doConnMut = true
    · simp only [hn, hc, ite_true]
      have hstep := add_node_mutation_valid child r.nodeChoice hchild.1 hchild.2
      exact add_connection_mutation_valid _ r.connChoice1 r.connChoice2 r.connWeight
        hstep.1 hstep.2
    · simp only [hn, hc, ite_true, ite_false, Bool.false_eq_true, if_false]
      exact add_node_mutation_valid child r.nodeChoice hchild.1 hchild.2
    · simp only [hn, hc, ite_true, ite_false, Bool.false_eq_true, if_false]
      exact add_connection_mutation_valid child r.connChoice1 r.connChoice2 r.connWeight
        hchild.1 hchild.2
    · simp only [hn, hc, ite_false, Bool.false_eq_true, if_false]
      exact hchild

theorem genome_endpoints_closed_witness :
    EndpointsValid (genomeOf [(1, ⟨1, 4, 1, true, 1⟩)] 0) ∧
    NodesKeyed (genomeOf [(1, ⟨1, 4, 1, true, 1⟩)] 0) :=
  genome_endpoints_closed.1 [(1, ⟨1, 4, 1, true, 1⟩)] 0 _ rfl

end NEAT
